import Mathlib

/-!
Verification development for the xio package: a cancelable byte-copy
primitive (`Copy`, `CopyN`) built around a single background worker that
performs sequential read/write cycles and races a cancellation token
against a one-shot completion channel.

The embedding follows `src/io.go` (the revision with int64 counts,
`WaitForLastWrite` defaulting to true, a 32 KiB default buffer, the
`*io.LimitedReader` buffer shrink, and `CopyN`), together with the options
file.  Sources and sinks are modelled as explicit state machines: a read
takes the current source state and a capacity (the length of the working
buffer handed to `Read`) and returns delivered bytes, an optional error and
the next state; a write takes the sink state and the bytes handed to
`Write` and returns the reported count, an optional error and the next
state.  `none` from a read or write models a call that never returns.

The worker goroutine body is deterministic; the only nondeterminism in the
Go code is the `select` between `ctx.Done()` and the completion channel
(and, in no-wait mode, the moment the atomic counter is sampled).  Those
scheduler choices are explicit parameters (`sel`, `sn`) of `Copy`, so every
possible outcome of the Go code is the value of the model at some choice.
-/

namespace Xio

/-- Errors observable in the model: the end-of-data sentinel `io.EOF`, a
context cancellation error, the package's `errInvalidWrite`, and arbitrary
other read/write failures tagged by a number. -/
inductive Err where
  | eof
  | canceled
  | invalidWrite
  | other (tag : Nat)
deriving DecidableEq, Repr

/-- Observable side effects of one worker run: the atomic counter value
(`total`), the successive values the counter takes after each
`atomicN.Add` (`counterTrace`), the sum of byte counts the sink reported
for the writes the engine validated (`sinkAccepted`), the number of read
and write calls issued, and the buffer length handed to each read
(`caps`). -/
structure Trace where
  total : Int
  counterTrace : List Int
  sinkAccepted : Int
  reads : Nat
  writes : Nat
  caps : List Nat
deriving DecidableEq, Repr

def Trace.init : Trace := ⟨0, [], 0, 0, 0, []⟩

/-- Final state of the worker goroutine: the error it sent on `errCh`
(`none` when it closed the channel without sending, i.e. the clean
end-of-data path), its side-effect trace, the final contents of the working
buffer, and the final source and sink states. -/
structure WorkerResult (σ τ : Type) where
  err : Option Err
  tr : Trace
  buf : List Nat
  src : σ
  dst : τ
deriving DecidableEq, Repr

/-- Source argument of `Copy`: either a plain reader state or an
`io.LimitedReader` wrapping a reader state, with `N` remaining bytes.
`Copy` type-switches on this exactly as the Go code does. -/
inductive ReaderSt (σ : Type) where
  | plain (s : σ)
  | limited (N : Int) (s : σ)
deriving DecidableEq, Repr

/-- Read through a `ReaderSt`.  The `limited` case is the Go standard
library's `io.LimitedReader.Read`: when no bytes remain it reports
`io.EOF` without consulting the inner reader; otherwise it caps the
request at `N`, delegates, and decrements `N` by the bytes delivered. -/
def readSt {σ : Type} (rd : σ → Nat → Option (List Nat × Option Err × σ)) :
    ReaderSt σ → Nat → Option (List Nat × Option Err × ReaderSt σ)
  | ReaderSt.plain s, cap =>
    match rd s cap with
    | none => none
    | some (data, e, s1) => some (data, e, ReaderSt.plain s1)
  | ReaderSt.limited N s, cap =>
    if N ≤ 0 then some ([], some Err.eof, ReaderSt.limited N s)
    else
      let cap1 := if (cap : Int) > N then N.toNat else cap
      match rd s cap1 with
      | none => none
      | some (data, e, s1) => some (data, e, ReaderSt.limited (N - data.length) s1)

/-- Cancellation token: `none` is a context that is never canceled;
`some (k, e)` is a context whose cancellation lands between the worker's
poll `k - 1` and poll `k`, with terminal error `e` (so `ctx.Err()` at poll
`i` is `some e` iff `k ≤ i`, and `ctx.Done()` eventually fires). -/
def ctxErrAt (cancelAt : Option (Nat × Err)) (i : Nat) : Option Err :=
  match cancelAt with
  | none => none
  | some (k, e) => if k ≤ i then some e else none

/-- Body of the worker goroutine of `Copy` (`src/io.go`): repeat
read → (if bytes were read) write the bytes just read → validate
`wn < 0 || wn > rn` (else `errInvalidWrite`, sent before the counter is
touched) → `atomicN.Add(wn)` → stop on write error → stop on read error
(suppressing `io.EOF`) → stop if the context reports an error → loop.
`fuel` bounds the number of cycles; `none` means the run did not finish
within the fuel (or a read/write call never returned).  The write is given
`data`, which is exactly `buf[:rn]` after the read deposited `data` at the
front of the buffer. -/
def runWorker {σ τ : Type}
    (rd : σ → Nat → Option (List Nat × Option Err × σ))
    (wr : τ → List Nat → Option (Int × Option Err × τ))
    (ctx : Nat → Option Err) :
    Nat → Nat → σ → τ → List Nat → Trace → Option (WorkerResult σ τ)
  | 0, _, _, _, _, _ => none
  | fuel + 1, i, s, t, buf, tr =>
    match rd s buf.length with
    | none => none
    | some (data, rErr, s1) =>
      let rn := data.length
      let buf1 := data ++ buf.drop rn
      let tr1 : Trace :=
        ⟨tr.total, tr.counterTrace, tr.sinkAccepted, tr.reads + 1, tr.writes, tr.caps ++ [buf.length]⟩
      if 0 < rn then
        match wr t data with
        | none => none
        | some (wn, wErr, t1) =>
          let tr2 : Trace :=
            ⟨tr1.total, tr1.counterTrace, tr1.sinkAccepted, tr1.reads, tr1.writes + 1, tr1.caps⟩
          if wn < 0 ∨ (rn : Int) < wn then
            some ⟨some Err.invalidWrite, tr2, buf1, s1, t1⟩
          else
            let tr3 : Trace :=
              ⟨tr2.total + wn, tr2.counterTrace ++ [tr2.total + wn], tr2.sinkAccepted + wn,
                tr2.reads, tr2.writes, tr2.caps⟩
            match wErr with
            | some we => some ⟨some we, tr3, buf1, s1, t1⟩
            | none =>
              match rErr with
              | some re => some ⟨if re = Err.eof then none else some re, tr3, buf1, s1, t1⟩
              | none =>
                match ctx i with
                | some ce => some ⟨some ce, tr3, buf1, s1, t1⟩
                | none => runWorker rd wr ctx fuel (i + 1) s1 t1 buf1 tr3
      else
        match rErr with
        | some re => some ⟨if re = Err.eof then none else some re, tr1, buf1, s1, t⟩
        | none =>
          match ctx i with
          | some ce => some ⟨some ce, tr1, buf1, s1, t⟩
          | none => runWorker rd wr ctx fuel (i + 1) s1 t buf1 tr1

/-- The options record of `src/options.go` used by this `Copy` revision. -/
structure CopyOptions where
  WaitForLastWrite : Bool
  bufferSize : Int
deriving DecidableEq, Repr

/-- Defaults set at the top of `Copy`: wait for the last write, 32 KiB
buffer (same as io/io.go). -/
def defaultOptions : CopyOptions := ⟨true, 32 * 1024⟩

def WaitForLastWrite (value : Bool) : CopyOptions → CopyOptions :=
  fun c => ⟨value, c.bufferSize⟩

def BufferSize (value : Int) : CopyOptions → CopyOptions :=
  fun c => ⟨c.WaitForLastWrite, value⟩

/-- Apply the option modifiers in call order over the defaults. -/
def applyOpts (opts : List (CopyOptions → CopyOptions)) : CopyOptions :=
  opts.foldl (fun c apply => apply c) defaultOptions

/-- Buffer-size resolution of `Copy`: when the source is an
`io.LimitedReader` whose remaining bound `N` is below the configured
buffer size, shrink to `N`, with a floor of 1 when `N < 1`; otherwise the
configured size stands. -/
def resolveBufferSize {σ : Type} (bufferSize : Int) : ReaderSt σ → Int
  | ReaderSt.plain _ => bufferSize
  | ReaderSt.limited N _ =>
    if bufferSize > N then (if N < 1 then 1 else N) else bufferSize

/-- Option application, buffer resolution and the worker run of `Copy`,
exposing the worker's full final state. -/
def copyCore {σ τ : Type} (fuel : Nat) (cancelAt : Option (Nat × Err))
    (wr : τ → List Nat → Option (Int × Option Err × τ)) (t : τ)
    (rd : σ → Nat → Option (List Nat × Option Err × σ)) (src : ReaderSt σ)
    (opts : List (CopyOptions → CopyOptions)) : Option (WorkerResult (ReaderSt σ) τ) :=
  let options := applyOpts opts
  let bufSize := resolveBufferSize options.bufferSize src
  runWorker (readSt rd) wr (ctxErrAt cancelAt) fuel 0 src t
    (List.replicate bufSize.toNat 0) Trace.init

/-- Atomic-counter value the caller samples when it returns on the
`ctx.Done()` branch in no-wait mode: some prefix value of the counter's
history (`0` before the first add, then successive trace values), selected
by the scheduler choice `sn`. -/
def snapshotAt (sn : Nat) (tr : Trace) : Int :=
  (0 :: tr.counterTrace).getD (min sn tr.counterTrace.length) 0

/-- The `Copy` function of `src/io.go`.  `sel` is the scheduler's choice of
`select` branch when both `ctx.Done()` and the completion channel are
ready (`true` = the `ctx.Done()` branch; that branch is only reachable
when the context is ever canceled, hence the match on `cancelAt`), and
`sn` picks the sampling moment of the atomic counter in no-wait mode.
With `WaitForLastWrite` the deferred block waits for the worker and
returns the final total together with the worker's error, falling back to
the context error observed by the `select` only when the worker closed the
channel without sending. -/
def Copy {σ τ : Type} (sel : Bool) (sn fuel : Nat) (cancelAt : Option (Nat × Err))
    (wr : τ → List Nat → Option (Int × Option Err × τ)) (t : τ)
    (rd : σ → Nat → Option (List Nat × Option Err × σ)) (src : ReaderSt σ)
    (opts : List (CopyOptions → CopyOptions)) : Option (Int × Option Err) :=
  match copyCore fuel cancelAt wr t rd src opts with
  | none => none
  | some r =>
    if (applyOpts opts).WaitForLastWrite then
      match cancelAt, sel with
      | some (_, ce), true =>
        some (r.tr.total, some (match r.err with | some e => e | none => ce))
      | _, _ => some (r.tr.total, r.err)
    else
      match cancelAt, sel with
      | some (_, ce), true => some (snapshotAt sn r.tr, some ce)
      | _, _ => some (r.tr.total, r.err)

/-- The `CopyN` function of `src/io.go`: delegate to `Copy` over
`io.LimitReader(src, n)` and post-process: reaching the bound is success;
a shortfall with no error becomes `io.EOF`; any other error is
propagated. -/
def CopyN {σ τ : Type} (sel : Bool) (sn fuel : Nat) (cancelAt : Option (Nat × Err))
    (wr : τ → List Nat → Option (Int × Option Err × τ)) (t : τ)
    (rd : σ → Nat → Option (List Nat × Option Err × σ)) (s : σ) (n : Int)
    (opts : List (CopyOptions → CopyOptions)) : Option (Int × Option Err) :=
  match Copy sel sn fuel cancelAt wr t rd (ReaderSt.limited n s) opts with
  | none => none
  | some (written, err) =>
    if written = n then some (n, none)
    else if written < n ∧ err = none then some (written, some Err.eof)
    else some (written, err)

/-- A reader backed by a list of canned responses: the k-th read returns the
k-th response regardless of the capacity offered; with no responses left
the read never returns. -/
def listRead : List (List Nat × Option Err) → Nat →
    Option (List Nat × Option Err × List (List Nat × Option Err))
  | [], _ => none
  | r :: rs, _ => some (r.1, r.2, rs)

/-- A writer backed by a list of canned responses: the k-th write reports
the k-th response regardless of the bytes given. -/
def listWrite : List (Int × Option Err) → List Nat →
    Option (Int × Option Err × List (Int × Option Err))
  | [], _ => none
  | w :: ws, _ => some (w.1, w.2, ws)

/-- A reader that always fills the offered buffer with zero bytes and never
errs. -/
def fillRead : Unit → Nat → Option (List Nat × Option Err × Unit) :=
  fun _ cap => some (List.replicate cap 0, none, ())

/-- A sink that accepts every byte given to it. -/
def goodWrite : Unit → List Nat → Option (Int × Option Err × Unit) :=
  fun _ bs => some ((bs.length : Int), none, ())

/-- A reader that fails immediately with the given error, delivering no
bytes. -/
def errRead (e : Err) : Unit → Nat → Option (List Nat × Option Err × Unit) :=
  fun _ _ => some ([], some e, ())

/-- Invariant tying a trace's counter history together: the recorded counter
values ascend from 0, end at the current total, and the total is exactly
what the sink reported accepting. -/
def TraceInv (tr : Trace) : Prop :=
  List.Chain' (· ≤ ·) (0 :: tr.counterTrace) ∧
  (0 :: tr.counterTrace).getLast? = some tr.total ∧
  tr.sinkAccepted = tr.total

end Xio

namespace XioSpec

/-- Modelled from the spec: the options record of the released revision,
with `WaitForLastOp`, `bufferSize` and an optional explicit `buffer`.  The
`Buffer` option is declared in the repository's options file
(src/unnamed/part_002), but the `Copy` revision under src/io.go predates
the `buffer` field; spec defaults are wait = true, bufferSize = 32768, no
explicit buffer. -/
structure copyoptions where
  WaitForLastOp : Bool
  bufferSize : Int
  buffer : Option (List Nat)
deriving DecidableEq, Repr

def defaults : copyoptions := ⟨true, 32 * 1024, none⟩

def WaitForLastOp (value : Bool) : copyoptions → copyoptions :=
  fun c => ⟨value, c.bufferSize, c.buffer⟩

def BufferSize (value : Int) : copyoptions → copyoptions :=
  fun c => ⟨c.WaitForLastOp, value, c.buffer⟩

def Buffer (b : List Nat) : copyoptions → copyoptions :=
  fun c => ⟨c.WaitForLastOp, c.bufferSize, some b⟩

def applyOpts (opts : List (copyoptions → copyoptions)) : copyoptions :=
  opts.foldl (fun c apply => apply c) defaults

/-- Modelled from the spec: when an explicit buffer is given it becomes the
working buffer and its length defines the transfer chunk size, overriding
`bufferSize`; otherwise a fresh buffer of the resolved size is
allocated. -/
def resolveBuffer {σ : Type} (options : copyoptions) (src : Xio.ReaderSt σ) : List Nat :=
  match options.buffer with
  | some b => b
  | none => List.replicate (Xio.resolveBufferSize options.bufferSize src).toNat 0

/-- Modelled from the spec: the released `Copy`'s option application, buffer
resolution and worker run, differing from `Xio.copyCore` only in taking the
working buffer from `resolveBuffer`. -/
def copyCore {σ τ : Type} (fuel : Nat) (cancelAt : Option (Nat × Xio.Err))
    (wr : τ → List Nat → Option (Int × Option Xio.Err × τ)) (t : τ)
    (rd : σ → Nat → Option (List Nat × Option Xio.Err × σ)) (src : Xio.ReaderSt σ)
    (opts : List (copyoptions → copyoptions)) :
    Option (Xio.WorkerResult (Xio.ReaderSt σ) τ) :=
  Xio.runWorker (Xio.readSt rd) wr (Xio.ctxErrAt cancelAt) fuel 0 src t
    (resolveBuffer (applyOpts opts) src) Xio.Trace.init

/-- Modelled from the spec: the released `Copy`, with the same completion
race as `Xio.Copy` but the `WaitForLastOp` flag and explicit-buffer support
of the released options. -/
def Copy {σ τ : Type} (sel : Bool) (sn fuel : Nat) (cancelAt : Option (Nat × Xio.Err))
    (wr : τ → List Nat → Option (Int × Option Xio.Err × τ)) (t : τ)
    (rd : σ → Nat → Option (List Nat × Option Xio.Err × σ)) (src : Xio.ReaderSt σ)
    (opts : List (copyoptions → copyoptions)) : Option (Int × Option Xio.Err) :=
  match copyCore fuel cancelAt wr t rd src opts with
  | none => none
  | some r =>
    if (applyOpts opts).WaitForLastOp then
      match cancelAt, sel with
      | some (_, ce), true =>
        some (r.tr.total, some (match r.err with | some e => e | none => ce))
      | _, _ => some (r.tr.total, r.err)
    else
      match cancelAt, sel with
      | some (_, ce), true => some (Xio.snapshotAt sn r.tr, some ce)
      | _, _ => some (r.tr.total, r.err)

/-- Modelled from the spec: `CopyBuffer` is a convenience over `Copy` with
the buffer option forced. -/
def CopyBuffer {σ τ : Type} (sel : Bool) (sn fuel : Nat) (cancelAt : Option (Nat × Xio.Err))
    (wr : τ → List Nat → Option (Int × Option Xio.Err × τ)) (t : τ)
    (rd : σ → Nat → Option (List Nat × Option Xio.Err × σ)) (src : Xio.ReaderSt σ)
    (b : List Nat) (opts : List (copyoptions → copyoptions)) : Option (Int × Option Xio.Err) :=
  Copy sel sn fuel cancelAt wr t rd src (opts ++ [Buffer b])

end XioSpec

namespace Xio

/-- C2 (code_bug evidence): with a context canceled before the call, `Copy`
still launches the worker, which issues a read and a write before it first
polls the context; with a source whose first read delivers 5 bytes and a
sink accepting them, every schedule returns `(5, canceled)`, not
`(0, canceled)`, and the trace shows one read and one write were issued. -/
theorem c2_precanceled_still_reads :
    (∀ sel : Bool, Copy sel 0 3 (some (0, Err.canceled)) goodWrite () listRead
      (ReaderSt.plain [([1, 2, 3, 4, 5], none), ([1], none)]) []
      = some (5, some Err.canceled)) ∧
    (copyCore 3 (some (0, Err.canceled)) goodWrite () listRead
      (ReaderSt.plain [([1, 2, 3, 4, 5], none), ([1], none)]) []).map
      (fun r => (r.tr.reads, r.tr.writes)) = some (1, 1) := by
  refine ⟨fun sel => ?_, by decide⟩
  cases sel <;> decide

/-- C4: the engine's result is post-processed by `CopyN` exactly as claimed:
reaching the bound returns `(limit, nil)` unconditionally; a shortfall with
no engine error synthesizes the end-of-data error; any other engine error
is propagated unchanged with its count. -/
theorem c4_copyN_postprocess {σ τ : Type} (sel : Bool) (sn fuel : Nat)
    (cancelAt : Option (Nat × Err))
    (wr : τ → List Nat → Option (Int × Option Err × τ)) (t : τ)
    (rd : σ → Nat → Option (List Nat × Option Err × σ)) (s : σ) (n w : Int)
    (e : Option Err) (opts : List (CopyOptions → CopyOptions))
    (h : Copy sel sn fuel cancelAt wr t rd (ReaderSt.limited n s) opts = some (w, e)) :
    (w = n → CopyN sel sn fuel cancelAt wr t rd s n opts = some (n, none)) ∧
    (w < n → e = none → CopyN sel sn fuel cancelAt wr t rd s n opts = some (w, some Err.eof)) ∧
    (w ≠ n → ¬(w < n ∧ e = none) →
      CopyN sel sn fuel cancelAt wr t rd s n opts = some (w, e)) := by
  unfold CopyN
  rw [h]
  refine ⟨fun hw => ?_, fun hlt he => ?_, fun hne hno => ?_⟩
  · subst hw
    simp
  · have hne : ¬w = n := by omega
    subst he
    simp [hne, hlt]
  · simp [hne, hno]

/-- C4 witness: against a source that delivers 50 bytes and then the
end-of-data sentinel, `copyN` with limit 100 returns `(50, endOfData)`. -/
theorem c4_copyN_postprocess_w :
    CopyN true 0 3 none goodWrite () listRead [(List.replicate 50 0, some Err.eof)] 100 []
      = some (50, some Err.eof) :=
  (c4_copyN_postprocess true 0 3 none goodWrite () listRead
    [(List.replicate 50 0, some Err.eof)] 100 50 none [] (by decide)).2.1
    (by decide) rfl

/-- C5 (counterexample): a sink whose write reports 5 of the 10 bytes it was
given with no error is not treated as invalid-write by the engine: the run
continues (a second read is issued), and the copy ends cleanly with
`(5, nil)` rather than stopping with the invalid-write error. -/
theorem c5_short_write_cex :
    Copy true 0 3 none listWrite [((5 : Int), none)] listRead
      (ReaderSt.plain [(List.replicate 10 1, none), ([], some Err.eof)]) []
      = some (5, none) ∧
    (copyCore 3 none listWrite [((5 : Int), none)] listRead
      (ReaderSt.plain [(List.replicate 10 1, none), ([], some Err.eof)]) []).map
      (fun r => (r.err, r.tr.reads, r.tr.writes)) = some (none, 2, 1) := by
  decide

end Xio

namespace Xio

/-- C5 (amended): a write count within `[0, bytesRead]` returned with no
error — including a short write — is accepted by the engine: the count is
added to the running total and the loop continues with the next read (the
short write is neither retried nor treated as invalid-write); with the
source then reporting end-of-data, the copy returns `(wn, nil)` after two
reads and one write. -/
theorem c5_short_write_accepted (d : List Nat) (wn B : Int) (sn : Nat) (sel : Bool)
    (hd : d ≠ []) (hcap : (d.length : Int) ≤ B) (h0 : 0 ≤ wn) (hle : wn ≤ (d.length : Int)) :
    Copy sel sn 2 none listWrite [(wn, none)] listRead
      (ReaderSt.plain [(d, none), ([], some Err.eof)]) [BufferSize B] = some (wn, none) ∧
    (copyCore 2 none listWrite [(wn, none)] listRead
      (ReaderSt.plain [(d, none), ([], some Err.eof)]) [BufferSize B]).map
      (fun r => (r.tr.reads, r.tr.writes)) = some (2, 1) := by
  have hlen : 0 < d.length := List.length_pos.mpr hd
  have hcond : ¬(wn < 0 ∨ (d.length : Int) < wn) := by omega
  constructor
  · simp [Copy, copyCore, runWorker, readSt, listRead, listWrite, ctxErrAt, applyOpts,
      defaultOptions, BufferSize, resolveBufferSize, Trace.init, hlen, hcond]
  · simp [copyCore, runWorker, readSt, listRead, listWrite, ctxErrAt, applyOpts,
      defaultOptions, BufferSize, resolveBufferSize, Trace.init, hlen, hcond]

/-- C6: a sink write reporting a count outside `[0, bytesRead]` on the first
cycle makes `Copy` return `(0, invalidWrite)` under every schedule and
cancellation state: the impossible count is never added to the counter and
the worker stops after that single read/write cycle. -/
theorem c6_invalid_write_count (d : List Nat) (re : Option Err) (wn : Int) (we : Option Err)
    (ws : List (Int × Option Err)) (rest : List (List Nat × Option Err))
    (cancelAt : Option (Nat × Err)) (sel : Bool) (sn fuel : Nat) (B : Int)
    (hd : d ≠ []) (hcap : (d.length : Int) ≤ B)
    (hw : wn < 0 ∨ (d.length : Int) < wn) :
    Copy sel sn (fuel + 1) cancelAt listWrite ((wn, we) :: ws) listRead
      (ReaderSt.plain ((d, re) :: rest)) [BufferSize B] = some (0, some Err.invalidWrite) ∧
    (copyCore (fuel + 1) cancelAt listWrite ((wn, we) :: ws) listRead
      (ReaderSt.plain ((d, re) :: rest)) [BufferSize B]).map (fun r => (r.tr.reads, r.tr.writes))
      = some (1, 1) := by
  have hlen : 0 < d.length := List.length_pos.mpr hd
  constructor
  · rcases cancelAt with _ | ⟨k, ce⟩ <;> cases sel <;>
      simp [Copy, copyCore, runWorker, readSt, listRead, listWrite, ctxErrAt, applyOpts,
        defaultOptions, BufferSize, resolveBufferSize, Trace.init, hlen, hw]
  · simp [copyCore, runWorker, readSt, listRead, listWrite, ctxErrAt, applyOpts,
      defaultOptions, BufferSize, resolveBufferSize, Trace.init, hlen, hw]

/-- C6 witness: a 42-byte write call reporting 100 bytes written yields
`(0, invalidWrite)` after one read and one write. -/
theorem c6_invalid_write_count_w :
    Copy true 0 1 none listWrite [((100 : Int), none)] listRead
      (ReaderSt.plain [(List.replicate 42 7, none)]) [BufferSize 64]
      = some (0, some Err.invalidWrite) ∧
    (copyCore 1 none listWrite [((100 : Int), none)] listRead
      (ReaderSt.plain [(List.replicate 42 7, none)]) [BufferSize 64]).map
      (fun r => (r.tr.reads, r.tr.writes)) = some (1, 1) :=
  c6_invalid_write_count (List.replicate 42 7) none 100 none [] [] none true 0 0 64
    (by decide) (by decide) (by decide)

/-- C5 witness (for the amended claim): a sink reporting 2 of 3 bytes with
no error: the copy returns `(2, nil)` after two reads and one write. -/
theorem c5_short_write_accepted_w :
    Copy true 0 2 none listWrite [((2 : Int), none)] listRead
      (ReaderSt.plain [([1, 2, 3], none), ([], some Err.eof)]) [BufferSize 8] = some (2, none) ∧
    (copyCore 2 none listWrite [((2 : Int), none)] listRead
      (ReaderSt.plain [([1, 2, 3], none), ([], some Err.eof)]) [BufferSize 8]).map
      (fun r => (r.tr.reads, r.tr.writes)) = some (2, 1) :=
  c5_short_write_accepted [1, 2, 3] 2 8 0 true (by decide) (by decide) (by decide) (by decide)

end Xio

namespace Xio

/-- C7 (counterexample): `CopyN` with limit 0 does delegate to the copy
engine — there is no pre-check of the zero limit.  The engine allocates a
1-byte working buffer (the shrink floor) and issues one read against the
zero-limited view, which reports end-of-data; a source with a pending
response shows the underlying reader is left untouched while the engine's
trace records one read with capacity 1. -/
theorem c7_zero_limit_cex :
    CopyN true 0 1 none listWrite [] listRead [([9], none)] 0 [] = some (0, none) ∧
    (copyCore 1 none listWrite [] listRead (ReaderSt.limited 0 [([9], none)]) []).map
      (fun r => (r.tr.reads, r.tr.caps)) = some (1, [1]) ∧
    (copyCore 1 none listWrite [] listRead (ReaderSt.limited 0 [([9], none)]) []).map
      (fun r => r.src) = some (ReaderSt.limited 0 [([9], none)]) := by
  refine ⟨by decide, by decide, by decide⟩

/-- C7 (amended): `copyN(token, sink, source, 0)` returns `(0, nil)` and
never invokes the underlying source's read — but not via a pre-check
before delegating: the engine runs one cycle in which the zero-limited
view reports end-of-data without consulting the wrapped reader, so the
worker performs exactly one read and no write and leaves the source state
untouched, under every cancellation state and schedule. -/
theorem c7_zero_limit_returns {σ τ : Type}
    (rd : σ → Nat → Option (List Nat × Option Err × σ)) (s : σ)
    (wr : τ → List Nat → Option (Int × Option Err × τ)) (t : τ)
    (cancelAt : Option (Nat × Err)) (sel : Bool) (sn fuel : Nat) :
    CopyN sel sn (fuel + 1) cancelAt wr t rd s 0 [] = some (0, none) ∧
    (copyCore (fuel + 1) cancelAt wr t rd (ReaderSt.limited 0 s) []).map
      (fun r => (r.tr.reads, r.tr.writes, r.src)) = some (1, 0, ReaderSt.limited 0 s) := by
  constructor
  · rcases cancelAt with _ | ⟨k, ce⟩ <;> cases sel <;>
      simp [CopyN, Copy, copyCore, runWorker, readSt, ctxErrAt, applyOpts,
        defaultOptions, resolveBufferSize, Trace.init]
  · simp [copyCore, runWorker, readSt, ctxErrAt, applyOpts, defaultOptions,
      resolveBufferSize, Trace.init]

end Xio

namespace Xio

/-- C9: buffer resolution for a bounded source.  When the
`io.LimitedReader` bound `N` is smaller than the resolved buffer size `B`,
the working buffer is shrunk to `N` with a floor of 1 byte when `N < 1`;
when the bound is not smaller, `B` is used unchanged; and the buffer the
engine actually hands to its first read has exactly the resolved length,
as the recorded read capacity shows. -/
theorem c9_limited_buffer_shrink {σ : Type} (B N : Int) (s : σ) :
    (N < B → resolveBufferSize B (ReaderSt.limited N s) = if N < 1 then 1 else N) ∧
    (B ≤ N → resolveBufferSize B (ReaderSt.limited N s) = B) ∧
    (copyCore 1 none goodWrite () (errRead (Err.other 0)) (ReaderSt.limited N ())
        [BufferSize B]).map (fun r => r.tr.caps)
      = some [(resolveBufferSize B (ReaderSt.limited N ())).toNat] := by
  refine ⟨fun h => ?_, fun h => ?_, ?_⟩
  · simp [resolveBufferSize, h]
  · simp [resolveBufferSize, not_lt.mpr h]
  · by_cases hN : N ≤ 0 <;>
      simp [copyCore, runWorker, readSt, errRead, ctxErrAt, applyOpts, defaultOptions,
        BufferSize, resolveBufferSize, Trace.init, hN]

/-- C9 witness: a 100-byte bound shrinks a 32768-byte buffer to 100; a
100-byte bound leaves a 64-byte buffer unchanged; a negative bound is
floored to a 1-byte buffer. -/
theorem c9_limited_buffer_shrink_w :
    resolveBufferSize 32768 (ReaderSt.limited (100 : Int) (() : Unit)) = 100 ∧
    resolveBufferSize 64 (ReaderSt.limited (100 : Int) (() : Unit)) = 64 ∧
    resolveBufferSize 32768 (ReaderSt.limited (-3 : Int) (() : Unit)) = 1 :=
  ⟨((c9_limited_buffer_shrink 32768 100 ()).1 (by decide)).trans (by decide),
   (c9_limited_buffer_shrink 64 100 ()).2.1 (by decide),
   ((c9_limited_buffer_shrink 32768 (-3) ()).1 (by decide)).trans (by decide)⟩

end Xio

namespace XioSpec

/-- C10: (modelled from the spec, which alone documents the explicit-buffer
path of the released Copy) an explicit buffer `b` becomes the working
buffer: the chunk size offered to the source is `b.length` (overriding
`bufferSize`), and after copying a one-shot source that delivers `data`
with the end-of-data sentinel through an accepting sink, `CopyBuffer`
returns `(data.length, nil)` and the buffer's first `data.length` bytes
are exactly `data`, the rest of `b` being untouched. -/
theorem c10_explicit_buffer (b data : List Nat) (sel : Bool) (sn fuel : Nat)
    (hd : data ≠ []) (hlen : data.length ≤ b.length) :
    CopyBuffer sel sn (fuel + 1) none Xio.goodWrite () Xio.listRead
      (Xio.ReaderSt.plain [(data, some Xio.Err.eof)]) b [] = some ((data.length : Int), none) ∧
    (copyCore (fuel + 1) none Xio.goodWrite () Xio.listRead
      (Xio.ReaderSt.plain [(data, some Xio.Err.eof)]) [Buffer b]).map
      (fun r => (r.tr.caps, r.buf.take data.length, r.buf.length))
      = some ([b.length], data, b.length) := by
  have hl : data.length + (b.length - data.length) = b.length := by omega
  have hpos : 0 < data.length := List.length_pos.mpr hd
  have h0 : ¬((data.length : Int) < 0) := by omega
  have hval : ¬((data.length : Int) < (data.length : Int)) := by omega
  constructor
  · simp [CopyBuffer, Copy, copyCore, Xio.runWorker, Xio.readSt, Xio.listRead,
      Xio.goodWrite, Xio.ctxErrAt, applyOpts, defaults, Buffer, resolveBuffer,
      Xio.Trace.init, hpos, h0, hval]
  · simp [copyCore, Xio.runWorker, Xio.readSt, Xio.listRead, Xio.goodWrite,
      Xio.ctxErrAt, applyOpts, defaults, Buffer, resolveBuffer, Xio.Trace.init,
      hpos, h0, hval, List.take_left, hl]

/-- C10 witness: an explicit buffer of length 15 used to copy the 11-byte
source "hello world" (ASCII codes) returns `(11, nil)` and leaves the
buffer's first 11 bytes equal to "hello world". -/
theorem c10_explicit_buffer_w :
    CopyBuffer true 0 1 none Xio.goodWrite () Xio.listRead
      (Xio.ReaderSt.plain [([104, 101, 108, 108, 111, 32, 119, 111, 114, 108, 100],
        some Xio.Err.eof)]) (List.replicate 15 0) [] = some (11, none) ∧
    (copyCore 1 none Xio.goodWrite () Xio.listRead
      (Xio.ReaderSt.plain [([104, 101, 108, 108, 111, 32, 119, 111, 114, 108, 100],
        some Xio.Err.eof)]) [Buffer (List.replicate 15 0)]).map
      (fun r => (r.tr.caps, r.buf.take 11, r.buf.length))
      = some ([15], [104, 101, 108, 108, 111, 32, 119, 111, 114, 108, 100], 15) :=
  c10_explicit_buffer (List.replicate 15 0)
    [104, 101, 108, 108, 111, 32, 119, 111, 114, 108, 100] true 0 0 (by decide) (by decide)

end XioSpec

namespace Xio

/-- One worker cycle over a canned error-free read that delivers bytes, an
accepting sink and no cancellation: the cycle adds the delivered count and
recurses. -/
theorem runWorker_step_clean (pd : List Nat) (rest : List (List Nat × Option Err))
    (i fuel : Nat) (buf : List Nat) (tr : Trace) (hd : 0 < pd.length) :
    runWorker (readSt listRead) goodWrite (ctxErrAt none) (fuel + 1) i
      (ReaderSt.plain ((pd, (none : Option Err)) :: rest)) () buf tr
    = runWorker (readSt listRead) goodWrite (ctxErrAt none) fuel (i + 1)
        (ReaderSt.plain rest) () (pd ++ buf.drop pd.length)
        ⟨tr.total + pd.length, tr.counterTrace ++ [tr.total + pd.length],
          tr.sinkAccepted + pd.length, tr.reads + 1, tr.writes + 1,
          tr.caps ++ [buf.length]⟩ := by
  have h0 : ¬((pd.length : Int) < 0) := by omega
  have h1 : ¬((pd.length : Int) < (pd.length : Int)) := by omega
  simp [runWorker, readSt, listRead, goodWrite, ctxErrAt, hd, h0, h1]

/-- One worker cycle over a canned error-free read that delivers no bytes:
nothing is written and the worker recurses. -/
theorem runWorker_step_skip (rest : List (List Nat × Option Err))
    (i fuel : Nat) (buf : List Nat) (tr : Trace) :
    runWorker (readSt listRead) goodWrite (ctxErrAt none) (fuel + 1) i
      (ReaderSt.plain (([], (none : Option Err)) :: rest)) () buf tr
    = runWorker (readSt listRead) goodWrite (ctxErrAt none) fuel (i + 1)
        (ReaderSt.plain rest) () buf
        ⟨tr.total, tr.counterTrace, tr.sinkAccepted, tr.reads + 1, tr.writes,
          tr.caps ++ [buf.length]⟩ := by
  simp [runWorker, readSt, listRead, goodWrite, ctxErrAt]

/-- Final worker cycle over a canned read carrying the end-of-data sentinel
(possibly together with final bytes): the sentinel is suppressed and the
worker stops cleanly with every delivered byte counted. -/
theorem runWorker_eof_stop (d : List Nat) (i fuel : Nat) (buf : List Nat) (tr : Trace) :
    ∃ res : WorkerResult (ReaderSt (List (List Nat × Option Err))) Unit,
      runWorker (readSt listRead) goodWrite (ctxErrAt none) (fuel + 1) i
        (ReaderSt.plain [(d, some Err.eof)]) () buf tr = some res ∧
      res.err = none ∧ res.tr.total = tr.total + (d.length : Int) := by
  by_cases hd : 0 < d.length
  · have h0 : ¬((d.length : Int) < 0) := by omega
    have h1 : ¬((d.length : Int) < (d.length : Int)) := by omega
    simp [runWorker, readSt, listRead, goodWrite, ctxErrAt, hd, h0, h1]
  · have hd0 : d.length = 0 := by omega
    simp [runWorker, readSt, listRead, goodWrite, ctxErrAt, hd, hd0]

/-- A worker run over a body of error-free canned reads followed by an
end-of-data read, against an accepting sink with no cancellation, ends
cleanly having added every delivered byte to the counter. -/
theorem runWorker_clean_run (body : List (List Nat × Option Err)) :
    ∀ (d : List Nat) (i fuel : Nat) (buf : List Nat) (tr : Trace),
    (∀ r ∈ body, r.2 = (none : Option Err)) → body.length < fuel →
    ∃ res : WorkerResult (ReaderSt (List (List Nat × Option Err))) Unit,
      runWorker (readSt listRead) goodWrite (ctxErrAt none) fuel i
        (ReaderSt.plain (body ++ [(d, some Err.eof)])) () buf tr = some res ∧
      res.err = none ∧
      res.tr.total
        = tr.total + (((body.map fun p => p.1.length).sum + d.length : Nat) : Int) := by
  induction body with
  | nil =>
    intro d i fuel buf tr _ hfuel
    match fuel, hfuel with
    | fuel + 1, _ =>
      obtain ⟨res, hres, herr, htot⟩ := runWorker_eof_stop d i fuel buf tr
      refine ⟨res, by simpa using hres, herr, ?_⟩
      rw [htot]
      push_cast
      simp
  | cons p rest ih =>
    intro d i fuel buf tr hbody hfuel
    obtain ⟨pd, pe⟩ := p
    have hpe : pe = none := hbody (pd, pe) (List.mem_cons_self _ _)
    subst hpe
    have hrest : ∀ r ∈ rest, r.2 = (none : Option Err) :=
      fun r hr => hbody r (List.mem_cons_of_mem _ hr)
    match fuel, hfuel with
    | fuel + 1, hfuel =>
      have hfuel1 : rest.length < fuel := by simpa using hfuel
      by_cases hd : 0 < pd.length
      · rw [List.cons_append, runWorker_step_clean pd _ i fuel buf tr hd]
        obtain ⟨res, hres, herr, htot⟩ := ih d (i + 1) fuel _ _ hrest hfuel1
        refine ⟨res, hres, herr, ?_⟩
        rw [htot]
        push_cast
        simp only [List.map_cons, List.sum_cons]
        ring
      · have hpd : pd = [] := by
          rcases pd with _ | _
          · rfl
          · simp at hd
        subst hpd
        rw [List.cons_append, runWorker_step_skip _ i fuel buf tr]
        obtain ⟨res, hres, herr, htot⟩ := ih d (i + 1) fuel _ _ hrest hfuel1
        refine ⟨res, hres, herr, ?_⟩
        rw [htot]
        push_cast
        simp only [List.map_cons, List.sum_cons, List.length_nil]
        push_cast
        ring

/-- C1: for every source that delivers `K` total bytes across error-free
reads and then signals the end-of-data sentinel, with a never-canceled
token and a sink that accepts every byte, `Copy` returns `(K, nil)`: the
sentinel is suppressed, never surfaced as an error. -/
theorem c1_copy_full_transfer (body : List (List Nat × Option Err)) (d : List Nat)
    (K fuel sn : Nat) (sel : Bool)
    (hbody : ∀ r ∈ body, r.2 = (none : Option Err))
    (hcap : ∀ r ∈ body, r.1.length ≤ 32768) (hdcap : d.length ≤ 32768)
    (hK : (body.map fun p => p.1.length).sum + d.length = K)
    (hfuel : body.length < fuel) :
    Copy sel sn fuel none goodWrite () listRead
      (ReaderSt.plain (body ++ [(d, some Err.eof)])) [] = some ((K : Int), none) := by
  obtain ⟨res, hres, herr, htot⟩ :=
    runWorker_clean_run body d 0 fuel (List.replicate (Int.toNat (32 * 1024)) 0)
      Trace.init hbody hfuel
  have hcore : copyCore fuel none goodWrite () listRead
      (ReaderSt.plain (body ++ [(d, some Err.eof)])) [] = some res := hres
  rw [hK] at htot
  unfold Copy
  rw [hcore]
  simp [applyOpts, defaultOptions, herr, htot, Trace.init]

/-- C1 witness: a source delivering 3 then 2 bytes then end-of-data copies
5 bytes with no error. -/
theorem c1_copy_full_transfer_w :
    Copy true 0 2 none goodWrite () listRead
      (ReaderSt.plain [([1, 2, 3], none), ([4, 5], some Err.eof)]) [] = some (5, none) :=
  c1_copy_full_transfer [([1, 2, 3], none)] [4, 5] 5 2 0 true (by decide) (by decide)
    (by decide) (by decide) (by decide)

end Xio

namespace Xio

/-- Worker over the always-filling reader and the accepting sink, with a
cancellation that lands at poll `i + j`: the worker performs exactly
`j + 1` full read/write cycles, each transferring one buffer of `b` bytes
counted in full, and stops with the cancellation error. -/
theorem runWorker_fill_cancel (b : Nat) (hb : 0 < b) (j : Nat) :
    ∀ (i fuel : Nat) (buf : List Nat) (tr : Trace), buf.length = b → j < fuel →
    ∃ res : WorkerResult (ReaderSt Unit) Unit,
      runWorker (readSt fillRead) goodWrite (ctxErrAt (some (i + j, Err.canceled))) fuel i
        (ReaderSt.plain ()) () buf tr = some res ∧
      res.err = some Err.canceled ∧
      res.tr.total = tr.total + ((j : Int) + 1) * (b : Int) ∧
      res.tr.writes = tr.writes + (j + 1) := by
  induction j with
  | zero =>
    intro i fuel buf tr hbuf hfuel
    match fuel, hfuel with
    | fuel + 1, _ =>
      have h0 : ¬((b : Int) < 0) := by omega
      have h1 : ¬((b : Int) < (b : Int)) := by omega
      simp [runWorker, readSt, fillRead, goodWrite, ctxErrAt, hbuf, hb, h0, h1]
  | succ j ih =>
    intro i fuel buf tr hbuf hfuel
    match fuel, hfuel with
    | fuel + 1, hfuel =>
      have hfuel1 : j < fuel := by omega
      have h0 : ¬((b : Int) < 0) := by omega
      have h1 : ¬((b : Int) < (b : Int)) := by omega
      have hidx : i + (j + 1) = (i + 1) + j := by ring
      have hpoll : ¬((i + 1) + j ≤ i) := by omega
      rw [hidx]
      obtain ⟨res, hres, herr, htot, hw⟩ := ih (i + 1) fuel
        (List.replicate b 0 ++ buf.drop b)
        ⟨tr.total + (b : Int), tr.counterTrace ++ [tr.total + (b : Int)],
          tr.sinkAccepted + (b : Int), tr.reads + 1, tr.writes + 1, tr.caps ++ [b]⟩
        (by simp [hbuf]) hfuel1
      refine ⟨res, ?_, herr, ?_, ?_⟩
      · simp [runWorker, readSt, fillRead, goodWrite, ctxErrAt, hbuf, hb, h0, h1,
          hpoll, hres]
      · rw [htot]
        push_cast
        ring
      · rw [hw]
        show tr.writes + 1 + (j + 1) = tr.writes + (j + 1 + 1)
        omega

/-- C3: with the wait-for-last-write mode (the default), a cancellation
that fires while the `j+1`-st write of `B` bytes is in flight makes `Copy`
block until that cycle completes: the returned count includes the full
`B` bytes of the in-flight write — the total is exactly `(j+1)*B` over
`j+1` completed writes — paired with the cancellation error. -/
theorem c3_wait_includes_inflight_write (B : Int) (j fuel sn : Nat) (sel : Bool)
    (hB : 0 < B) (hfuel : j < fuel) :
    Copy sel sn fuel (some (j, Err.canceled)) goodWrite () fillRead (ReaderSt.plain ())
      [BufferSize B] = some (((j : Int) + 1) * B, some Err.canceled) ∧
    (copyCore fuel (some (j, Err.canceled)) goodWrite () fillRead (ReaderSt.plain ())
      [BufferSize B]).map (fun r => r.tr.writes) = some (j + 1) := by
  have hbpos : 0 < B.toNat := by omega
  have hBB : ((B.toNat : Int)) = B := Int.toNat_of_nonneg hB.le
  obtain ⟨res, hres, herr, htot, hw⟩ := runWorker_fill_cancel B.toNat hbpos j 0 fuel
    (List.replicate B.toNat 0) Trace.init (by simp) hfuel
  simp only [Nat.zero_add] at hres
  have hcore : copyCore fuel (some (j, Err.canceled)) goodWrite () fillRead
      (ReaderSt.plain ()) [BufferSize B] = some res := hres
  constructor
  · unfold Copy
    rw [hcore]
    cases sel <;>
      simp [applyOpts, BufferSize, defaultOptions, herr, htot, Trace.init, hBB]
  · simp [hcore, hw, Trace.init]

/-- C3 witness: buffer size 4, cancellation landing at poll 2: the copy
returns `(12, canceled)` — three full 4-byte writes, including the one in
flight at cancellation. -/
theorem c3_wait_includes_inflight_write_w :
    Copy true 0 3 (some (2, Err.canceled)) goodWrite () fillRead (ReaderSt.plain ())
      [BufferSize 4] = some (12, some Err.canceled) ∧
    (copyCore 3 (some (2, Err.canceled)) goodWrite () fillRead (ReaderSt.plain ())
      [BufferSize 4]).map (fun r => r.tr.writes) = some 3 :=
  c3_wait_includes_inflight_write 4 2 3 0 true (by decide) (by decide)

end Xio

namespace Xio

/-- Every element of a list that ascends pairwise is bounded by its last
element. -/
theorem chain_le_getLast (l : List Int) :
    ∀ (a : Int), List.Chain' (· ≤ ·) l → l.getLast? = some a → ∀ v ∈ l, v ≤ a := by
  induction l with
  | nil =>
    intro a _ _ v hv
    simp at hv
  | cons x xs ih =>
    intro a hc hl v hv
    rcases xs with _ | ⟨y, ys⟩
    · simp at hl hv
      omega
    · have hxy : x ≤ y := (List.chain'_cons.mp hc).1
      have hc1 : List.Chain' (· ≤ ·) (y :: ys) := (List.chain'_cons.mp hc).2
      have hl1 : (y :: ys).getLast? = some a := by simpa using hl
      rcases List.mem_cons.mp hv with hvx | hvm
      · subst hvx
        exact hxy.trans (ih a hc1 hl1 y (List.mem_cons_self _ _))
      · exact ih a hc1 hl1 v hvm

/-- Appending a validated non-negative write count to a trace preserves the
counter-history invariant, whatever the bookkeeping fields do. -/
theorem traceInv_append (tr : Trace) (wn : Int) (a b : Nat) (c : List Nat)
    (hwn : 0 ≤ wn) (hinv : TraceInv tr) :
    TraceInv ⟨tr.total + wn, tr.counterTrace ++ [tr.total + wn], tr.sinkAccepted + wn,
      a, b, c⟩ := by
  obtain ⟨hc, hl, ha⟩ := hinv
  refine ⟨?_, ?_, ?_⟩
  · show List.Chain' (· ≤ ·) ((0 : Int) :: (tr.counterTrace ++ [tr.total + wn]))
    rw [show (0 : Int) :: (tr.counterTrace ++ [tr.total + wn])
        = ((0 : Int) :: tr.counterTrace) ++ [tr.total + wn] by simp]
    refine List.Chain'.append hc (List.chain'_singleton _) ?_
    intro x hx y hy
    rw [hl] at hx
    simp at hx hy
    omega
  · show ((0 : Int) :: (tr.counterTrace ++ [tr.total + wn])).getLast? = some (tr.total + wn)
    rw [show (0 : Int) :: (tr.counterTrace ++ [tr.total + wn])
        = ((0 : Int) :: tr.counterTrace) ++ [tr.total + wn] by simp]
    rw [List.getLast?_concat]
  · show tr.sinkAccepted + wn = tr.total + wn
    rw [ha]

/-- The worker preserves the counter-history invariant: the counter values
ascend from 0, end at the final total, and the total equals the bytes the
sink reported accepting across validated writes. -/
theorem runWorker_traceInv {σ τ : Type}
    (rd : σ → Nat → Option (List Nat × Option Err × σ))
    (wr : τ → List Nat → Option (Int × Option Err × τ)) (ctx : Nat → Option Err) :
    ∀ (fuel i : Nat) (s : σ) (t : τ) (buf : List Nat) (tr : Trace)
      (res : WorkerResult σ τ), TraceInv tr →
      runWorker rd wr ctx fuel i s t buf tr = some res → TraceInv res.tr := by
  intro fuel
  induction fuel with
  | zero =>
    intro i s t buf tr res _ h
    simp [runWorker] at h
  | succ fuel ih =>
    intro i s t buf tr res hinv h
    simp only [runWorker] at h
    cases hrd : rd s buf.length with
    | none => simp [hrd] at h
    | some v =>
      obtain ⟨data, rErr, s1⟩ := v
      simp only [hrd] at h
      by_cases hrn : 0 < data.length
      · simp only [if_pos hrn] at h
        cases hwr : wr t data with
        | none => simp [hwr] at h
        | some w =>
          obtain ⟨wn, wErr, t1⟩ := w
          simp only [hwr] at h
          by_cases hval : wn < 0 ∨ ((data.length : Int)) < wn
          · simp only [if_pos hval] at h
            obtain rfl : _ = res := Option.some.inj h
            exact hinv
          · simp only [if_neg hval] at h
            have hwn : 0 ≤ wn := by
              push_neg at hval
              exact hval.1
            have hinv3 := traceInv_append
              ⟨tr.total, tr.counterTrace, tr.sinkAccepted, tr.reads + 1, tr.writes + 1,
                tr.caps ++ [buf.length]⟩ wn
              (tr.reads + 1) (tr.writes + 1) (tr.caps ++ [buf.length]) hwn hinv
            cases wErr with
            | some we =>
              obtain rfl : _ = res := Option.some.inj h
              exact hinv3
            | none =>
              cases rErr with
              | some re =>
                obtain rfl : _ = res := Option.some.inj h
                exact hinv3
              | none =>
                cases hctx : ctx i with
                | some ce =>
                  simp only [hctx] at h
                  obtain rfl : _ = res := Option.some.inj h
                  exact hinv3
                | none =>
                  simp only [hctx] at h
                  exact ih (i + 1) s1 t1 _ _ res hinv3 h
      · simp only [if_neg hrn] at h
        cases rErr with
        | some re =>
          obtain rfl : _ = res := Option.some.inj h
          exact hinv
        | none =>
          cases hctx : ctx i with
          | some ce =>
            simp only [hctx] at h
            obtain rfl : _ = res := Option.some.inj h
            exact hinv
          | none =>
            simp only [hctx] at h
            exact ih (i + 1) s1 t _
              ⟨tr.total, tr.counterTrace, tr.sinkAccepted, tr.reads + 1, tr.writes,
                tr.caps ++ [buf.length]⟩ res hinv h

end Xio

namespace Xio

/-- The counter value the caller samples at cancellation time in no-wait
mode is one of the recorded counter values (with 0 standing for the state
before the first add). -/
theorem snapshotAt_mem (sn : Nat) (tr : Trace) :
    snapshotAt sn tr ∈ (0 : Int) :: tr.counterTrace := by
  unfold snapshotAt
  have hidx : min sn tr.counterTrace.length < ((0 : Int) :: tr.counterTrace).length := by
    simp only [List.length_cons]
    omega
  rw [List.getD_eq_getElem _ _ hidx]
  exact List.getElem_mem hidx

/-- C8: over any copy invocation (any reader, sink, cancellation state,
options and fuel), the counter history ascends monotonically from 0, every
recorded counter value is bounded by the byte total the sink reported
accepting, so is the final total, and every count `Copy` can return to the
caller — the final total in wait mode, or a cancellation-time snapshot in
no-wait mode — respects the same bound. -/
theorem c8_counter_monotone_bounded {σ τ : Type} (fuel : Nat)
    (cancelAt : Option (Nat × Err))
    (wr : τ → List Nat → Option (Int × Option Err × τ)) (t : τ)
    (rd : σ → Nat → Option (List Nat × Option Err × σ)) (src : ReaderSt σ)
    (opts : List (CopyOptions → CopyOptions)) (res : WorkerResult (ReaderSt σ) τ)
    (h : copyCore fuel cancelAt wr t rd src opts = some res) :
    List.Chain' (· ≤ ·) ((0 : Int) :: res.tr.counterTrace) ∧
    (∀ v ∈ res.tr.counterTrace, v ≤ res.tr.sinkAccepted) ∧
    res.tr.total ≤ res.tr.sinkAccepted ∧
    ∀ (sel : Bool) (sn : Nat) (out : Int × Option Err),
      Copy sel sn fuel cancelAt wr t rd src opts = some out →
      out.1 ≤ res.tr.sinkAccepted := by
  have hinv0 : TraceInv Trace.init := ⟨List.chain'_singleton _, rfl, rfl⟩
  have hinv : TraceInv res.tr :=
    runWorker_traceInv (readSt rd) wr (ctxErrAt cancelAt) fuel 0 src t _ Trace.init
      res hinv0 h
  obtain ⟨hc, hl, ha⟩ := hinv
  have hbound : ∀ v ∈ (0 : Int) :: res.tr.counterTrace, v ≤ res.tr.total :=
    chain_le_getLast ((0 : Int) :: res.tr.counterTrace) res.tr.total hc hl
  refine ⟨hc, ?_, ?_, ?_⟩
  · intro v hv
    rw [ha]
    exact hbound v (List.mem_cons_of_mem _ hv)
  · rw [ha]
  · intro sel sn out hout
    unfold Copy at hout
    rw [h] at hout
    rw [ha]
    by_cases hwait : (applyOpts opts).WaitForLastWrite <;>
      rcases cancelAt with _ | ⟨k, ce⟩ <;> cases sel <;>
        simp only [hwait, if_pos, if_neg, if_true, if_false, Bool.false_eq_true] at hout <;>
        obtain rfl : _ = out := Option.some.inj hout <;>
        first
          | exact le_refl _
          | exact hbound _ (snapshotAt_mem sn res.tr)

end Xio

namespace Xio

/-- C8 witness: a concrete two-cycle run (2 bytes accepted): the counter
history ascends from 0 through [2], stays within the 2 bytes the sink
accepted, and every possible `Copy` return count is bounded by 2. -/
theorem c8_counter_monotone_bounded_w :
    List.Chain' (· ≤ ·) ((0 : Int) :: [(2 : Int)]) ∧
    (∀ v ∈ [(2 : Int)], v ≤ (2 : Int)) ∧
    (2 : Int) ≤ (2 : Int) ∧
    ∀ (sel : Bool) (sn : Nat) (out : Int × Option Err),
      Copy sel sn 2 none goodWrite () listRead
        (ReaderSt.plain [([1, 2], none), ([], some Err.eof)]) [BufferSize 4] = some out →
      out.1 ≤ (2 : Int) :=
  c8_counter_monotone_bounded 2 none goodWrite () listRead
    (ReaderSt.plain [([1, 2], none), ([], some Err.eof)]) [BufferSize 4]
    ⟨none, ⟨2, [2], 2, 2, 1, [4, 4]⟩, [1, 2, 0, 0], ReaderSt.plain [], ()⟩ (by decide)

end Xio
